import Mathlib

/-!
# Verification of the mkdocs tags plugin (`tags/plugin.py`)

This file gives a shallow embedding of the metadata-extraction, grouping and
rendering logic of the plugin and proves the specified properties about it.

The embedding follows the source file `tags/plugin.py`:

* `extract_yaml` / `extractLoop` embed the line scanner inside `get_metadata`;
* `get_metadata` embeds the helper of the same name (the YAML parser is an
  external black box and is passed in as a function `parse`);
* `yearKey`, `sortMeta`, `groupStep`, `groupFold`, `generate_tags_groups`
  embed the sort-and-group part of `TagsPlugin.generate_tags_file`;
* `sortItems`, `pyCapitalize`, `generate_tags_page` embed the context built by
  `TagsPlugin.generate_tags_page` for the template engine (itself a black box).

Python dictionaries are modelled as association lists in insertion order
(first match wins on lookup; a fresh key is appended at the end, as CPython
dicts do).  Machine-level details that the claims do not touch (full Unicode
case mapping beyond ASCII, `TypeError` on heterogeneous sort keys) are noted
with comments where they arise.
-/

namespace Tags

/-- A YAML scalar appearing inside a tag sequence. -/
inductive Scalar where
  | snull
  | sstr (s : String)
  | sint (n : Int)
deriving DecidableEq, Repr

/-- A YAML value stored under a metadata key: a scalar or a sequence of
scalars.  (Tag sequences in front matter are sequences of scalars; a nested
sequence would be unhashable as a `tag_dict` key in the source and is outside
every claim, so it is not modelled.) -/
inductive Val where
  | vnull
  | vstr (s : String)
  | vint (n : Int)
  | vlist (xs : List Scalar)
deriving DecidableEq, Repr

/-- A metadata record: a Python dict in insertion order. -/
abbrev Record := List (String × Val)

/-- `d.get(k)` / `k in d`: first binding of `k` wins. -/
def dictGet : Record → String → Option Val
  | [], _ => none
  | (k', v) :: rest, k => if k' = k then some v else dictGet rest k

/-- `d[k] = v`: overwrite the existing binding in place, else append at the
end (CPython dict semantics). -/
def setKey : Record → String → Val → Record
  | [], k, v => [(k, v)]
  | (k', v') :: rest, k, v =>
    if k' = k then (k, v) :: rest else (k', v') :: setKey rest k v

/-- `line.strip()`: drop whitespace from both ends. -/
def stripStr (s : String) : String :=
  String.mk (((s.data.dropWhile Char.isWhitespace).reverse.dropWhile
    Char.isWhitespace).reverse)

/-- `s.lower()`.  `Char.toLower` is the ASCII case map; the claims only use
ASCII tag names. -/
def lowerStr (s : String) : String :=
  String.mk (s.data.map Char.toLower)

/-- `s.capitalize()`: first character upper-cased, every remaining character
lower-cased (ASCII case map, as above). -/
def pyCapitalize (s : String) : String :=
  match s.data with
  | [] => ""
  | c :: cs => String.mk (Char.toUpper c :: cs.map Char.toLower)

/-- Modelled from the spec: the spec's phrase "the tag-category name with its
first character capitalized" read literally — only the first character is
changed, the rest of the string is untouched.  Kept for comparison with
`pyCapitalize`, which is what the source computes. -/
def specCapitalize (s : String) : String :=
  match s.data with
  | [] => ""
  | c :: cs => String.mk (Char.toUpper c :: cs)

/-- The loop body of `extract_yaml` inside `get_metadata`:
state = (`inheader`, accumulated `result`). -/
def extractLoop : List String → Bool → List String → List String
  | [], _, result => result
  | line :: rest, inheader, result =>
    if stripStr line = "---" then
      if inheader then result          -- second delimiter: break
      else extractLoop rest true result -- first delimiter: open the block
    else
      if inheader then extractLoop rest inheader (result ++ [line])
      else extractLoop rest inheader result

/-- `extract_yaml(f)`: concatenate the lines strictly between the first two
`---` delimiter lines (each line keeps its trailing newline, as Python file
iteration does). -/
def extract_yaml (lines : List String) : String :=
  String.join (extractLoop lines false [])

/-- Result of the black-box `yaml.load`: a null, a dict (key-value mapping),
or any other value (scalar or sequence — anything without an `update`
method, which is all the code distinguishes). -/
inductive YVal where
  | null
  | dict (r : Record)
  | other
deriving DecidableEq, Repr

/-- `get_metadata(name, path, encoding)` for a document whose decoded lines
are `lines`; `parse` is the black-box YAML parser.  A non-empty block whose
parse is not a dict has no `.update` method, so `meta.update(filename=name)`
raises `AttributeError`, modelled as `Except.error ()`.  An empty extracted
block means the function falls through and returns `None`. -/
def get_metadata (parse : String → YVal) (name : String) (lines : List String) :
    Except Unit (Option Record) :=
  if extract_yaml lines = "" then Except.ok none
  else
    match parse (extract_yaml lines) with
    | YVal.dict r => Except.ok (some (setKey r "filename" (Val.vstr name)))
    | _ => Except.error ()

/-- The sort key of `sorted(self.metadata, key=lambda e: e.get("year", 5000)
if e else 0)`.  A falsy entry (`None` or the empty dict) gets key `0`; the
claims only concern numeric `year` values, so a present non-integer `year`
(which would make the Python comparison raise `TypeError`) is mapped to the
same sentinel as a missing one and is excluded by hypothesis in every
theorem that touches it. -/
def yearKey (e0 : Option Record) : Int :=
  match e0 with
  | none => 0
  | some r =>
    if r = [] then 0
    else
      match dictGet r "year" with
      | some (Val.vint n) => n
      | some _ => 5000
      | none => 5000

/-- Stable insertion: place `x` before the first element whose key is not
below `x`'s.  Used to model Python's stable `sorted(..., key=...)`. -/
def insertSorted (key : α → κ) (leK : κ → κ → Bool) (x : α) : List α → List α
  | [] => [x]
  | y :: ys =>
    if leK (key x) (key y) then x :: y :: ys else y :: insertSorted key leK x ys

/-- Stable sort by `key` under the total preorder `leK`: any stable sort
computes the same list as CPython's stable `sorted`. -/
def sortStable (key : α → κ) (leK : κ → κ → Bool) : List α → List α
  | [] => []
  | x :: xs => insertSorted key leK x (sortStable key leK xs)

/-- Decidable `≤` on `Int` as a `Bool`. -/
def intLeB (a b : Int) : Bool := decide (a ≤ b)

/-- `sorted_meta = sorted(self.metadata, key=...)` in `generate_tags_file`. -/
def sortMeta (l : List (Option Record)) : List (Option Record) :=
  sortStable yearKey intLeB l

/-- `if "title" not in e: e["title"] = "Untitled"`. -/
def withTitle (r : Record) : Record :=
  if dictGet r "title" = none then r ++ [("title", Val.vstr "Untitled")] else r

/-- A tag grouping: `defaultdict(list)` in insertion order — the key order is
first-encounter order, each key's list grows at its end. -/
abbrev TagDict := List (Scalar × List Record)

/-- `tag_dict[tag].append(e)` on a `defaultdict(list)`. -/
def appendTag (d : TagDict) (tag : Scalar) (e : Record) : TagDict :=
  match d with
  | [] => [(tag, [e])]
  | (t, es) :: rest =>
    if t = tag then (t, es ++ [e]) :: rest else (t, es) :: appendTag rest tag e

/-- Read a tag's group list; a tag never seen groups an empty list (what
`defaultdict(list)` would create on first touch). -/
def findTagD (d : TagDict) (tag : Scalar) : List Record :=
  match d with
  | [] => []
  | (t, es) :: rest => if t = tag then es else findTagD rest tag

/-- `for tag in tags` — Python iteration over the value found under the tag
category: a sequence yields its items, a string yields its characters, and a
number is not iterable (`TypeError`, hence `none`).  `vnull` is guarded by
`if tags is not None` before ever being iterated. -/
def iterVal : Val → Option (List Scalar)
  | Val.vlist xs => some xs
  | Val.vstr s => some (s.data.map fun c => Scalar.sstr (String.mk [c]))
  | _ => none

/-- One iteration of the `for e in sorted_meta` loop of
`generate_tags_file`: skip falsy entries, default the title, then append the
record to the group of every tag in its sequence. -/
def groupStep (tagname : String) (d : TagDict) (e0 : Option Record) :
    Except Unit TagDict :=
  match e0 with
  | none => Except.ok d
  | some r =>
    if r = [] then Except.ok d
    else
      let e := withTitle r
      match dictGet e tagname with
      | none => Except.ok d               -- tags = [] : empty loop
      | some Val.vnull => Except.ok d     -- tags is None: skipped
      | some v =>
        match iterVal v with
        | none => Except.error ()         -- not iterable: TypeError
        | some ts => Except.ok (ts.foldl (fun d t => appendTag d t e) d)

/-- The whole `for e in sorted_meta` loop, propagating a raised error. -/
def groupFold (tagname : String) (d : TagDict) : List (Option Record) →
    Except Unit TagDict
  | [] => Except.ok d
  | e0 :: rest =>
    match groupStep tagname d e0 with
    | Except.error u => Except.error u
    | Except.ok d' => groupFold tagname d' rest

/-- The sort-and-group part of `TagsPlugin.generate_tags_file`: build
`tag_dict` from the globally sorted metadata list. -/
def generate_tags_groups (tagname : String) (metadata : List (Option Record)) :
    Except Unit TagDict :=
  groupFold tagname [] (sortMeta metadata)

/-- The contribution of one metadata entry to the group of `tag`: nothing for
a falsy entry, a missing key, a null value or a non-iterable value, and one
copy of the (title-defaulted) record per occurrence of `tag` in the iterated
sequence. -/
def tagContrib (tagname : String) (tag : Scalar) (e0 : Option Record) :
    List Record :=
  match e0 with
  | none => []
  | some r =>
    if r = [] then []
    else
      let e := withTitle r
      match dictGet e tagname with
      | none => []
      | some Val.vnull => []
      | some v =>
        match iterVal v with
        | none => []
        | some ts => List.replicate (ts.count tag) e

/-- Entries whose tag-category value (if any, after the title default) is a
sequence or null — the shapes every claim about the aggregator speaks of. -/
def okTagVal (tagname : String) (e0 : Option Record) : Bool :=
  match e0 with
  | none => true
  | some r =>
    match dictGet (withTitle r) tagname with
    | none => true
    | some Val.vnull => true
    | some (Val.vlist _) => true
    | some _ => false

/-- Entries whose `year` value, when present, is an integer (Python would
raise `TypeError` while sorting otherwise). -/
def numericYear (e0 : Option Record) : Bool :=
  match e0 with
  | none => true
  | some r =>
    match dictGet r "year" with
    | none => true
    | some (Val.vint _) => true
    | some _ => false

/-- Code-point comparison of char lists — Python's `<=` on `str`. -/
def charListLe : List Char → List Char → Bool
  | [], _ => true
  | _ :: _, [] => false
  | a :: as, b :: bs =>
    if a.toNat < b.toNat then true
    else if b.toNat < a.toNat then false
    else charListLe as bs

/-- Python's `<=` on strings: lexicographic by code point. -/
def strLe (a b : String) : Bool := charListLe a.data b.data

/-- The sort key `lambda t: t[0].lower()` of `generate_tags_page`; a non-string
tag value would raise `AttributeError` in Python and is excluded by hypothesis
where it matters. -/
def keyStr : Scalar → String
  | Scalar.sstr s => s
  | _ => ""

/-- The lower-cased sort key of one `(tag, records)` item. -/
def lowerKeyOf (p : Scalar × List Record) : String := lowerStr (keyStr p.1)

/-- `sorted(data.items(), key=lambda t: t[0].lower())` in
`generate_tags_page`: the items of the grouping (insertion order) stably
sorted by lower-cased tag. -/
def sortItems (d : TagDict) : TagDict := sortStable lowerKeyOf strLe d

/-- The context handed to `templ.render(...)` by `generate_tags_page` (the
template engine itself is a black box). -/
structure RenderContext where
  tags : TagDict
  tagname : String
  title : String
deriving DecidableEq, Repr

/-- The data-to-context part of `TagsPlugin.generate_tags_page`. -/
def generate_tags_page (data : TagDict) (tagname : String) : RenderContext :=
  { tags := sortItems data
    tagname := tagname
    title := pyCapitalize tagname }

-- ## Generic lemmas about the stable sort

theorem perm_insertSorted (key : α → κ) (leK : κ → κ → Bool) (x : α) :
    ∀ xs : List α, (insertSorted key leK x xs).Perm (x :: xs)
  | [] => List.Perm.refl _
  | y :: ys => by
    simp only [insertSorted]
    split
    · exact List.Perm.refl _
    · exact ((perm_insertSorted key leK x ys).cons y).trans (List.Perm.swap x y ys)

theorem perm_sortStable (key : α → κ) (leK : κ → κ → Bool) :
    ∀ l : List α, (sortStable key leK l).Perm l
  | [] => List.Perm.refl _
  | x :: xs => by
    simpa [sortStable] using
      (perm_insertSorted key leK x (sortStable key leK xs)).trans
        ((perm_sortStable key leK xs).cons x)

theorem mem_insertSorted (key : α → κ) (leK : κ → κ → Bool) (x z : α)
    (xs : List α) : z ∈ insertSorted key leK x xs ↔ z = x ∨ z ∈ xs := by
  rw [(perm_insertSorted key leK x xs).mem_iff, List.mem_cons]

/-- The stability relation: strictly smaller key, or equal key and an
earlier original position. -/
def SR (key : α → κ) (leK : κ → κ → Bool) (idx : α → Nat) (a b : α) : Prop :=
  (leK (key a) (key b) = true ∧ key a ≠ key b) ∨ (key a = key b ∧ idx a < idx b)

theorem pairwise_sr_insertSorted (key : α → κ) (leK : κ → κ → Bool)
    (idx : α → Nat)
    (Hrefl : ∀ a, leK a a = true)
    (Htot : ∀ a b, leK a b = true ∨ leK b a = true)
    (Htrans : ∀ a b c, leK a b = true → leK b c = true → leK a c = true)
    (x : α) :
    ∀ xs : List α, xs.Pairwise (SR key leK idx) →
      (∀ y ∈ xs, idx x < idx y) →
      (insertSorted key leK x xs).Pairwise (SR key leK idx)
  | [], _, _ => by simp [insertSorted]
  | y :: ys, hp, hx => by
    rcases List.pairwise_cons.mp hp with ⟨hyz, hys⟩
    simp only [insertSorted]
    split
    case isTrue hle =>
      refine List.pairwise_cons.mpr ⟨?_, hp⟩
      intro z hz
      rcases List.mem_cons.mp hz with rfl | hz
      · by_cases hk : key x = key z
        · exact Or.inr ⟨hk, hx z hz⟩
        · exact Or.inl ⟨hle, hk⟩
      · have hyzle : leK (key y) (key z) = true := by
          rcases hyz z hz with ⟨h, _⟩ | ⟨h, _⟩
          · exact h
          · rw [h]; exact Hrefl _
        have hxz : leK (key x) (key z) = true := Htrans _ _ _ hle hyzle
        by_cases hk : key x = key z
        · exact Or.inr ⟨hk, hx z (List.mem_cons_of_mem y hz)⟩
        · exact Or.inl ⟨hxz, hk⟩
    case isFalse hle =>
      refine List.pairwise_cons.mpr ⟨?_, ?_⟩
      · intro z hz
        rcases (mem_insertSorted key leK x z ys).mp hz with rfl | hz
        · have hyx : leK (key y) (key z) = true := by
            rcases Htot (key y) (key z) with h | h
            · exact h
            · exact absurd h hle
          refine Or.inl ⟨hyx, ?_⟩
          intro hk
          exact hle (by rw [hk]; exact Hrefl _)
        · exact hyz z hz
      · exact pairwise_sr_insertSorted key leK idx Hrefl Htot Htrans x ys hys
          (fun z hz => hx z (List.mem_cons_of_mem y hz))

theorem pairwise_sr_sortStable (key : α → κ) (leK : κ → κ → Bool)
    (idx : α → Nat)
    (Hrefl : ∀ a, leK a a = true)
    (Htot : ∀ a b, leK a b = true ∨ leK b a = true)
    (Htrans : ∀ a b c, leK a b = true → leK b c = true → leK a c = true) :
    ∀ l : List α, l.Pairwise (fun a b => idx a < idx b) →
      (sortStable key leK l).Pairwise (SR key leK idx)
  | [], _ => by simp [sortStable]
  | x :: xs, hp => by
    rcases List.pairwise_cons.mp hp with ⟨hx, hxs⟩
    simp only [sortStable]
    refine pairwise_sr_insertSorted key leK idx Hrefl Htot Htrans x _
      (pairwise_sr_sortStable key leK idx Hrefl Htot Htrans xs hxs) ?_
    intro y hy
    exact hx y ((perm_sortStable key leK xs).mem_iff.mp hy)

theorem pairwise_le_insertSorted (key : α → κ) (leK : κ → κ → Bool)
    (Htot : ∀ a b, leK a b = true ∨ leK b a = true)
    (Htrans : ∀ a b c, leK a b = true → leK b c = true → leK a c = true)
    (x : α) :
    ∀ xs : List α, xs.Pairwise (fun a b => leK (key a) (key b) = true) →
      (insertSorted key leK x xs).Pairwise (fun a b => leK (key a) (key b) = true)
  | [], _ => by simp [insertSorted]
  | y :: ys, hp => by
    rcases List.pairwise_cons.mp hp with ⟨hyz, hys⟩
    simp only [insertSorted]
    split
    case isTrue hle =>
      refine List.pairwise_cons.mpr ⟨?_, hp⟩
      intro z hz
      rcases List.mem_cons.mp hz with rfl | hz
      · exact hle
      · exact Htrans _ _ _ hle (hyz z hz)
    case isFalse hle =>
      refine List.pairwise_cons.mpr ⟨?_, ?_⟩
      · intro z hz
        rcases (mem_insertSorted key leK x z ys).mp hz with rfl | hz
        · rcases Htot (key y) (key z) with h | h
          · exact h
          · exact absurd h hle
        · exact hyz z hz
      · exact pairwise_le_insertSorted key leK Htot Htrans x ys hys

theorem pairwise_le_sortStable (key : α → κ) (leK : κ → κ → Bool)
    (Htot : ∀ a b, leK a b = true ∨ leK b a = true)
    (Htrans : ∀ a b c, leK a b = true → leK b c = true → leK a c = true) :
    ∀ l : List α,
      (sortStable key leK l).Pairwise (fun a b => leK (key a) (key b) = true)
  | [] => by simp [sortStable]
  | x :: xs => by
    simp only [sortStable]
    exact pairwise_le_insertSorted key leK Htot Htrans x _
      (pairwise_le_sortStable key leK Htot Htrans xs)

theorem map_insertSorted (key : β → κ) (leK : κ → κ → Bool) (f : α → β)
    (x : α) : ∀ l : List α,
    (insertSorted (fun a => key (f a)) leK x l).map f
      = insertSorted key leK (f x) (l.map f)
  | [] => by simp [insertSorted]
  | y :: ys => by
    simp only [insertSorted, List.map_cons]
    split
    · simp
    · simp [map_insertSorted key leK f x ys]

theorem map_sortStable (key : β → κ) (leK : κ → κ → Bool) (f : α → β) :
    ∀ l : List α,
    (sortStable (fun a => key (f a)) leK l).map f = sortStable key leK (l.map f)
  | [] => by simp [sortStable]
  | x :: xs => by
    simp only [sortStable, List.map_cons]
    rw [← map_sortStable key leK f xs, map_insertSorted]

theorem le_fst_of_mem_enumFrom {α : Type _} :
    ∀ (n : Nat) (l : List α) (p : Nat × α), p ∈ List.enumFrom n l → n ≤ p.1
  | _, [], _, h => by simp at h
  | n, x :: xs, p, h => by
    simp only [List.enumFrom, List.mem_cons] at h
    rcases h with rfl | h
    · exact Nat.le_refl n
    · exact Nat.le_of_succ_le (le_fst_of_mem_enumFrom (n + 1) xs p h)

theorem pairwise_fst_lt_enumFrom {α : Type _} :
    ∀ (n : Nat) (l : List α),
      (List.enumFrom n l).Pairwise (fun a b => a.1 < b.1)
  | _, [] => by simp
  | n, x :: xs => by
    simp only [List.enumFrom]
    refine List.pairwise_cons.mpr ⟨?_, pairwise_fst_lt_enumFrom (n + 1) xs⟩
    intro p hp
    exact Nat.lt_of_lt_of_le (Nat.lt_succ_self n) (le_fst_of_mem_enumFrom _ _ _ hp)

theorem pairwise_fst_lt_enum {α : Type _} (l : List α) :
    l.enum.Pairwise (fun a b => a.1 < b.1) :=
  pairwise_fst_lt_enumFrom 0 l

theorem enum_map_snd_self {α : Type _} (l : List α) : l.enum.map Prod.snd = l :=
  List.enum_map_snd l

-- ## The two comparators are total preorders

theorem intLeB_refl (a : Int) : intLeB a a = true := by simp [intLeB]

theorem intLeB_total (a b : Int) : intLeB a b = true ∨ intLeB b a = true := by
  simp [intLeB]
  omega

theorem intLeB_trans (a b c : Int) (h1 : intLeB a b = true)
    (h2 : intLeB b c = true) : intLeB a c = true := by
  simp [intLeB] at *
  omega

theorem charListLe_refl : ∀ as : List Char, charListLe as as = true
  | [] => rfl
  | a :: as => by simp [charListLe, charListLe_refl as]

theorem charListLe_total : ∀ as bs : List Char,
    charListLe as bs = true ∨ charListLe bs as = true
  | [], _ => Or.inl rfl
  | _ :: _, [] => Or.inr rfl
  | a :: as, b :: bs => by
    simp only [charListLe]
    rcases Nat.lt_trichotomy a.toNat b.toNat with h | h | h
    · left; simp [h]
    · have h' : ¬ a.toNat < b.toNat := by omega
      have h'' : ¬ b.toNat < a.toNat := by omega
      rcases charListLe_total as bs with ih | ih
      · left; simp [h', h'', ih]
      · right; simp [h', h'', ih]
    · right; simp [h]

theorem charListLe_trans : ∀ as bs cs : List Char,
    charListLe as bs = true → charListLe bs cs = true →
    charListLe as cs = true
  | [], _, _, _, _ => rfl
  | _ :: _, [], _, h, _ => by simp [charListLe] at h
  | _ :: _, _ :: _, [], _, h => by simp [charListLe] at h
  | a :: as, b :: bs, c :: cs, h1, h2 => by
    simp only [charListLe] at h1 h2 ⊢
    rcases Nat.lt_trichotomy a.toNat c.toNat with h | h | h
    · simp [h]
    · have h' : ¬ a.toNat < c.toNat := by omega
      have h'' : ¬ c.toNat < a.toNat := by omega
      rw [if_neg h', if_neg h'']
      -- show the tails compare; rule out the strict cases first
      by_cases hab : a.toNat < b.toNat
      · by_cases hbc : b.toNat < c.toNat
        · omega
        · have hcb : c.toNat < b.toNat := by
            rcases Nat.lt_trichotomy b.toNat c.toNat with hx | hx | hx
            · omega
            · omega
            · exact hx
          simp [hbc, hcb] at h2
      · by_cases hba : b.toNat < a.toNat
        · simp [hab, hba] at h1
        · have hbc' : ¬ b.toNat < c.toNat := by omega
          have hcb' : ¬ c.toNat < b.toNat := by omega
          simp only [hab, if_false, hba, if_true, if_neg] at h1
          simp only [hbc', if_false, hcb', if_true, if_neg] at h2
          simp [charListLe_trans as bs cs h1 h2]
    · -- a.toNat > c.toNat is impossible given h1 h2
      exfalso
      by_cases hab : a.toNat < b.toNat
      · by_cases hbc : b.toNat < c.toNat
        · omega
        · have hcb : c.toNat < b.toNat := by omega
          simp [hbc, hcb] at h2
      · by_cases hba : b.toNat < a.toNat
        · simp [hab, hba] at h1
        · have hbc : ¬ b.toNat < c.toNat := by omega
          have hcb : c.toNat < b.toNat := by omega
          simp [hbc, hcb] at h2

theorem strLe_refl (a : String) : strLe a a = true := charListLe_refl a.data

theorem strLe_total (a b : String) : strLe a b = true ∨ strLe b a = true :=
  charListLe_total a.data b.data

theorem strLe_trans (a b c : String) (h1 : strLe a b = true)
    (h2 : strLe b c = true) : strLe a c = true :=
  charListLe_trans a.data b.data c.data h1 h2

-- ## Dictionary helper lemmas

theorem dictGet_setKey_same : ∀ (r : Record) (k : String) (v : Val),
    dictGet (setKey r k v) k = some v
  | [], k, v => by simp [setKey, dictGet]
  | (k', v') :: rest, k, v => by
    simp only [setKey]
    by_cases h : k' = k
    · simp [h, dictGet]
    · simp [h, dictGet, dictGet_setKey_same rest k v]

theorem dictGet_append_of_none : ∀ (r s : Record) (k : String),
    dictGet r k = none → dictGet (r ++ s) k = dictGet s k
  | [], _, _, _ => rfl
  | (k', v') :: rest, s, k, h => by
    simp only [dictGet] at h ⊢
    by_cases hk : k' = k
    · simp [hk] at h
    · simp only [hk, if_false] at h ⊢
      exact dictGet_append_of_none rest s k h

theorem withTitle_of_has (r : Record) (h : dictGet r "title" ≠ none) :
    withTitle r = r := by
  simp [withTitle, h]

theorem dictGet_withTitle_of_missing (r : Record)
    (h : dictGet r "title" = none) :
    dictGet (withTitle r) "title" = some (Val.vstr "Untitled") := by
  simp only [withTitle, h, if_true]
  rw [dictGet_append_of_none r _ "title" h]
  rfl

theorem dictGet_withTitle_title (r : Record) :
    dictGet (withTitle r) "title" ≠ none := by
  by_cases h : dictGet r "title" = none
  · rw [dictGet_withTitle_of_missing r h]
    simp
  · rw [withTitle_of_has r h]
    exact h

-- ## Grouping lemmas

theorem findTagD_appendTag (tag t : Scalar) (e : Record) :
    ∀ d : TagDict, findTagD (appendTag d t e) tag
      = if t = tag then findTagD d tag ++ [e] else findTagD d tag
  | [] => by
    by_cases h : t = tag
    · simp [appendTag, findTagD, h]
    · simp [appendTag, findTagD, h]
  | (t', es) :: rest => by
    simp only [appendTag]
    by_cases h1 : t' = t
    · subst h1
      by_cases h2 : t' = tag
      · simp [findTagD, h2]
      · simp [findTagD, h2]
    · simp only [h1, if_false]
      by_cases h2 : t' = tag
      · subst h2
        have h3 : ¬ t = t' := fun h => h1 h.symm
        simp [findTagD, h3, h1]
      · simp [findTagD, h2, findTagD_appendTag tag t e rest]

theorem cons_replicate_eq_append (e : α) : ∀ n : Nat,
    e :: List.replicate n e = List.replicate n e ++ [e]
  | 0 => rfl
  | n + 1 => by
    simp only [List.replicate_succ, List.cons_append, List.cons.injEq, true_and]
    exact cons_replicate_eq_append e n

theorem findTagD_foldl_appendTag (tag : Scalar) (e : Record) :
    ∀ (ts : List Scalar) (d : TagDict),
      findTagD (ts.foldl (fun d t => appendTag d t e) d) tag
        = findTagD d tag ++ List.replicate (ts.count tag) e
  | [], d => by simp [List.count]
  | t :: ts, d => by
    simp only [List.foldl_cons]
    rw [findTagD_foldl_appendTag tag e ts (appendTag d t e),
      findTagD_appendTag]
    by_cases h : t = tag
    · simp [h, List.count_cons, List.replicate_succ', List.append_assoc]
      exact cons_replicate_eq_append e _
    · have h' : ¬ (t == tag) = true := by simp [h]
      simp [h, List.count_cons, h']

theorem groupStep_ok_of_okTagVal (tagname : String) (d : TagDict)
    (e0 : Option Record) (h : okTagVal tagname e0 = true) :
    ∃ d', groupStep tagname d e0 = Except.ok d' := by
  match e0 with
  | none => exact ⟨d, rfl⟩
  | some r =>
    simp only [okTagVal] at h
    simp only [groupStep]
    by_cases hr : r = []
    · simp [hr]
    · simp only [hr, if_false]
      cases hv : dictGet (withTitle r) tagname with
      | none => exact ⟨d, rfl⟩
      | some v =>
        rw [hv] at h
        cases v with
        | vnull => exact ⟨d, rfl⟩
        | vstr s => simp at h
        | vint n => simp at h
        | vlist xs => exact ⟨_, rfl⟩

theorem findTagD_groupStep (tagname : String) (d d' : TagDict)
    (e0 : Option Record) (h : groupStep tagname d e0 = Except.ok d')
    (tag : Scalar) :
    findTagD d' tag = findTagD d tag ++ tagContrib tagname tag e0 := by
  match e0 with
  | none =>
    simp only [groupStep, Except.ok.injEq] at h
    subst h
    simp [tagContrib]
  | some r =>
    simp only [groupStep] at h
    simp only [tagContrib]
    by_cases hr : r = []
    · simp only [hr, if_true] at h ⊢
      simp only [Except.ok.injEq] at h
      subst h
      simp
    · simp only [hr, if_false] at h ⊢
      cases hv : dictGet (withTitle r) tagname with
      | none =>
        rw [hv] at h
        simp only [Except.ok.injEq] at h
        subst h
        simp
      | some v =>
        rw [hv] at h
        cases v with
        | vnull =>
          simp only [Except.ok.injEq] at h
          subst h
          simp
        | vstr s =>
          simp only [iterVal, Except.ok.injEq] at h ⊢
          subst h
          rw [findTagD_foldl_appendTag]
        | vint n => simp [iterVal] at h
        | vlist xs =>
          simp only [iterVal, Except.ok.injEq] at h ⊢
          subst h
          rw [findTagD_foldl_appendTag]

theorem groupFold_ok (tagname : String) :
    ∀ (ms : List (Option Record)) (d : TagDict),
      (∀ e0 ∈ ms, okTagVal tagname e0 = true) →
      ∃ D, groupFold tagname d ms = Except.ok D ∧
        ∀ tag, findTagD D tag
          = findTagD d tag ++ ms.flatMap (tagContrib tagname tag)
  | [], d, _ => ⟨d, rfl, by simp⟩
  | e0 :: rest, d, h => by
    obtain ⟨d', hd'⟩ := groupStep_ok_of_okTagVal tagname d e0
      (h e0 (List.mem_cons_self e0 rest))
    obtain ⟨D, hD, hQ⟩ := groupFold_ok tagname rest d'
      (fun e he => h e (List.mem_cons_of_mem e0 he))
    refine ⟨D, ?_, ?_⟩
    · simp [groupFold, hd', hD]
    · intro tag
      rw [hQ tag, findTagD_groupStep tagname d d' e0 hd' tag]
      simp [List.flatMap_cons, List.append_assoc]

theorem generate_tags_groups_ok (tagname : String)
    (l : List (Option Record)) (h : l.all (okTagVal tagname) = true) :
    ∃ D, generate_tags_groups tagname l = Except.ok D ∧
      ∀ tag, findTagD D tag = (sortMeta l).flatMap (tagContrib tagname tag) := by
  have hall : ∀ e0 ∈ sortMeta l, okTagVal tagname e0 = true := by
    intro e0 he
    exact List.all_eq_true.mp h e0
      ((perm_sortStable yearKey intLeB l).mem_iff.mp he)
  obtain ⟨D, hD, hQ⟩ := groupFold_ok tagname (sortMeta l) [] hall
  refine ⟨D, hD, ?_⟩
  intro tag
  rw [hQ tag]
  simp [findTagD]

theorem count_le_count_flatMap {α β : Type _} [BEq β] (f : α → List β)
    (x : β) : ∀ (ms : List α) (e0 : α), e0 ∈ ms →
      (f e0).count x ≤ (ms.flatMap f).count x
  | [], _, h => by simp at h
  | m :: ms, e0, h => by
    rcases List.mem_cons.mp h with rfl | h
    · have : ((e0 :: ms).flatMap f).count x
          = (f e0).count x + (ms.flatMap f).count x := by
        simp [List.flatMap_cons, List.count_append]
      omega
    · have ih := count_le_count_flatMap f x ms e0 h
      have : ((m :: ms).flatMap f).count x
          = (f m).count x + (ms.flatMap f).count x := by
        simp [List.flatMap_cons, List.count_append]
      omega

-- ## Extractor lemmas

theorem extractLoop_skip_outside : ∀ (ls rest : List String)
    (acc : List String), (∀ s ∈ ls, stripStr s ≠ "---") →
    extractLoop (ls ++ rest) false acc = extractLoop rest false acc
  | [], _, _, _ => rfl
  | l :: ls, rest, acc, h => by
    have hl : stripStr l ≠ "---" := h l (List.mem_cons_self l ls)
    simp only [List.cons_append, extractLoop, hl, if_false, Bool.false_eq_true]
    exact extractLoop_skip_outside ls rest acc
      (fun s hs => h s (List.mem_cons_of_mem l hs))

theorem extractLoop_collect_inside : ∀ (ls acc : List String),
    (∀ s ∈ ls, stripStr s ≠ "---") →
    extractLoop ls true acc = acc ++ ls
  | [], acc, _ => by simp [extractLoop]
  | l :: ls, acc, h => by
    have hl : stripStr l ≠ "---" := h l (List.mem_cons_self l ls)
    simp only [extractLoop, hl, if_false, if_true]
    rw [extractLoop_collect_inside ls (acc ++ [l])
      (fun s hs => h s (List.mem_cons_of_mem l hs))]
    simp

theorem extract_yaml_of_no_delim (lines : List String)
    (h : ∀ s ∈ lines, stripStr s ≠ "---") : extract_yaml lines = "" := by
  have := extractLoop_skip_outside lines [] [] h
  rw [List.append_nil] at this
  simp [extract_yaml, this, extractLoop, String.join]

theorem extract_yaml_of_single_delim (pre : List String) (dl : String)
    (post : List String) (hdl : stripStr dl = "---")
    (hpre : ∀ s ∈ pre, stripStr s ≠ "---")
    (hpost : ∀ s ∈ post, stripStr s ≠ "---") :
    extract_yaml (pre ++ dl :: post) = String.join post := by
  unfold extract_yaml
  rw [extractLoop_skip_outside pre (dl :: post) [] hpre]
  simp only [extractLoop, hdl, if_pos, if_true]
  rw [extractLoop_collect_inside post [] hpost]
  simp

-- ## `get_metadata` lemmas

theorem get_metadata_of_empty_yaml (parse : String → YVal) (name : String)
    (lines : List String) (h : extract_yaml lines = "") :
    get_metadata parse name lines = Except.ok none := by
  simp [get_metadata, h]

theorem get_metadata_of_nondict (parse : String → YVal) (name : String)
    (lines : List String) (h : extract_yaml lines ≠ "")
    (hnd : ∀ r, parse (extract_yaml lines) ≠ YVal.dict r) :
    get_metadata parse name lines = Except.error () := by
  unfold get_metadata
  rw [if_neg h]
  cases hp : parse (extract_yaml lines) with
  | null => rfl
  | dict r => exact absurd hp (hnd r)
  | other => rfl

theorem get_metadata_ok_shape (parse : String → YVal) (name : String)
    (lines : List String) (res : Option Record)
    (h : get_metadata parse name lines = Except.ok res) :
    res = none ∨ ∃ r, parse (extract_yaml lines) = YVal.dict r ∧
      res = some (setKey r "filename" (Val.vstr name)) := by
  simp only [get_metadata] at h
  by_cases he : extract_yaml lines = ""
  · simp only [he, if_pos, if_true, Except.ok.injEq] at h
    exact Or.inl h.symm
  · simp only [he, if_false] at h
    cases hp : parse (extract_yaml lines) with
    | null => rw [hp] at h; exact absurd h (by simp)
    | dict r =>
      rw [hp] at h
      simp only [Except.ok.injEq] at h
      exact Or.inr ⟨r, rfl, h.symm⟩
    | other => rw [hp] at h; exact absurd h (by simp)

-- ## Claim C3

/-- C3, counterexample.  The claim says a document whose metadata block is
opened but never closed (exactly one `---` delimiter line) yields an empty
extraction result.  On the code, the loop only stops at a second delimiter,
so everything after a single delimiter is returned: for the two-line document
`---` / `a: 1` the extractor returns `"a: 1\n"`, not the empty string. -/
theorem C3_claim_counterexample :
    (["---\n", "a: 1\n"].countP (fun s => stripStr s == "---") = 1) ∧
    extract_yaml ["---\n", "a: 1\n"] = "a: 1\n" ∧
    ¬ extract_yaml ["---\n", "a: 1\n"] = "" :=
  ⟨by decide, by decide, by decide⟩

/-- C3, amended.  A document with no `---` delimiter line extracts to the
empty string, `get_metadata` returns "no metadata" for it whatever the parser
does, and a "no metadata" entry leaves every tag group of the aggregator
unchanged.  A document with exactly one delimiter line instead extracts to
the concatenation of all the lines after the delimiter (so the block is
treated as running to the end of the file, and the result is empty only when
nothing follows the delimiter). -/
theorem C3_unterminated_block (lines : List String) :
    ((∀ s ∈ lines, stripStr s ≠ "---") →
      extract_yaml lines = "" ∧
      (∀ parse name, get_metadata parse name lines = Except.ok none) ∧
      (∀ tagname d, groupStep tagname d none = Except.ok d)) ∧
    (∀ pre dl post, lines = pre ++ dl :: post → stripStr dl = "---" →
      (∀ s ∈ pre, stripStr s ≠ "---") → (∀ s ∈ post, stripStr s ≠ "---") →
      extract_yaml lines = String.join post) := by
  constructor
  · intro h
    have he := extract_yaml_of_no_delim lines h
    exact ⟨he, fun parse name => get_metadata_of_empty_yaml parse name lines he,
      fun tagname d => rfl⟩
  · intro pre dl post hsplit hdl hpre hpost
    rw [hsplit]
    exact extract_yaml_of_single_delim pre dl post hdl hpre hpost

/-- Witness for `C3_unterminated_block`: both branches at concrete inputs. -/
theorem C3_unterminated_block_witness :
    extract_yaml ["# t\n", "hello\n"] = "" ∧
    get_metadata (fun _ => YVal.other) "a.md" ["# t\n", "hello\n"]
      = Except.ok none ∧
    extract_yaml ["---\n", "x: 1\n"] = String.join ["x: 1\n"] := by
  have h1 := (C3_unterminated_block ["# t\n", "hello\n"]).1 (by decide)
  have h2 := (C3_unterminated_block ["---\n", "x: 1\n"]).2
    [] "---\n" ["x: 1\n"] rfl (by decide) (by decide) (by decide)
  exact ⟨h1.1, h1.2.1 _ _, h2⟩

-- ## Claim C4

/-- C4, counterexample.  The claim says a document whose front-matter
block's raw text parses to null yields "no metadata" with no error.  The
code's guard `if metadata:` tests only whether the raw text is non-empty; a
non-empty block of comment text parses to `None` (modelled by a parser
returning `YVal.null` on this input) and then `meta.update(filename=...)`
raises `AttributeError` — an error, not "no metadata". -/
theorem C4_claim_counterexample :
    extract_yaml ["---\n", "# c\n", "---\n"] = "# c\n" ∧
    (fun _ => YVal.null : String → YVal)
        (extract_yaml ["---\n", "# c\n", "---\n"]) = YVal.null ∧
    get_metadata (fun _ => YVal.null) "doc.md" ["---\n", "# c\n", "---\n"]
      = Except.error () :=
  ⟨by decide, rfl, rfl⟩

/-- C4, amended.  A document whose *extracted raw text is empty* is
treated as "no metadata": `get_metadata` returns no record and no error
(without ever invoking the parser), and the resulting "no metadata" entry is
skipped by the aggregator, leaving every group unchanged.  If the raw text
is non-empty but parses to null, `get_metadata` instead raises a fatal
error. -/
theorem C4_null_parse_fatal (parse : String → YVal) (name : String)
    (lines : List String) :
    (extract_yaml lines = "" →
      get_metadata parse name lines = Except.ok none ∧
      (∀ tagname d, groupStep tagname d none = Except.ok d)) ∧
    (extract_yaml lines ≠ "" → parse (extract_yaml lines) = YVal.null →
      get_metadata parse name lines = Except.error ()) := by
  constructor
  · intro he
    exact ⟨get_metadata_of_empty_yaml parse name lines he, fun tagname d => rfl⟩
  · intro he hnull
    refine get_metadata_of_nondict parse name lines he ?_
    intro r h
    rw [hnull] at h
    exact YVal.noConfusion h

/-- Witness for `C4_null_parse_fatal`: both branches at concrete inputs. -/
theorem C4_null_parse_fatal_witness :
    get_metadata (fun _ => YVal.null) "a.md" ["body\n"] = Except.ok none ∧
    get_metadata (fun _ => YVal.null) "a.md" ["---\n", "w\n", "---\n"]
      = Except.error () := by
  have h1 := (C4_null_parse_fatal (fun _ => YVal.null) "a.md" ["body\n"]).1
    (by decide)
  have h2 := (C4_null_parse_fatal (fun _ => YVal.null) "a.md"
    ["---\n", "w\n", "---\n"]).2 (by decide) rfl
  exact ⟨h1.1, h2⟩

-- ## Claim C9

/-- C9.  If the extracted raw text is non-empty and its parse is not a
key-value mapping (a bare scalar, a sequence, or null), `get_metadata`
raises a fatal error at the `meta.update(filename=...)` step; consequently a
successful call only ever returns "no metadata" or a mapping containing the
`filename` key. -/
theorem C9_nondict_parse_fatal (parse : String → YVal) (name : String)
    (lines : List String) :
    ((extract_yaml lines ≠ "" ∧
        ∀ r, parse (extract_yaml lines) ≠ YVal.dict r) →
      get_metadata parse name lines = Except.error ()) ∧
    (∀ res, get_metadata parse name lines = Except.ok res →
      res = none ∨
        ∃ m, res = some m ∧ dictGet m "filename" = some (Val.vstr name)) := by
  constructor
  · intro ⟨he, hnd⟩
    exact get_metadata_of_nondict parse name lines he hnd
  · intro res h
    rcases get_metadata_ok_shape parse name lines res h with hn | ⟨r, _, hm⟩
    · exact Or.inl hn
    · exact Or.inr ⟨setKey r "filename" (Val.vstr name), hm,
        dictGet_setKey_same r "filename" (Val.vstr name)⟩

/-- Witness for `C9_nondict_parse_fatal`: a scalar-parsing document errors,
and a successful call carries `filename`. -/
theorem C9_nondict_parse_fatal_witness :
    get_metadata (fun _ => YVal.other) "d.md" ["---\n", "x\n", "---\n"]
      = Except.error () ∧
    ((some [("filename", Val.vstr "d.md")] : Option Record) = none ∨
      ∃ m, (some [("filename", Val.vstr "d.md")] : Option Record) = some m ∧
        dictGet m "filename" = some (Val.vstr "d.md")) := by
  constructor
  · exact (C9_nondict_parse_fatal (fun _ => YVal.other) "d.md"
      ["---\n", "x\n", "---\n"]).1
      ⟨by decide, fun r h => YVal.noConfusion h⟩
  · exact (C9_nondict_parse_fatal (fun _ => YVal.dict []) "d.md"
      ["---\n", "x\n", "---\n"]).2 (some [("filename", Val.vstr "d.md")]) rfl

-- ## Claim C7

/-- C7.  Every record returned by `get_metadata` carries the document's
relative path under `filename`; the value is injected by
`meta.update(filename=name)`, which overwrites any pre-existing `filename`
binding (last conjunct: `setKey` always makes the new value the one found). -/
theorem C7_filename_overwritten (parse : String → YVal) (name : String)
    (lines : List String) (m : Record)
    (h : get_metadata parse name lines = Except.ok (some m)) :
    dictGet m "filename" = some (Val.vstr name) ∧
    (∃ r, parse (extract_yaml lines) = YVal.dict r ∧
      m = setKey r "filename" (Val.vstr name)) ∧
    (∀ (r : Record) (v : Val),
      dictGet (setKey r "filename" v) "filename" = some v) := by
  rcases get_metadata_ok_shape parse name lines (some m) h with hn | ⟨r, hp, hm⟩
  · exact absurd hn (by simp)
  · simp only [Option.some.injEq] at hm
    subst hm
    exact ⟨dictGet_setKey_same r "filename" (Val.vstr name), ⟨r, hp, rfl⟩,
      fun r v => dictGet_setKey_same r "filename" v⟩

/-- Witness for `C7_filename_overwritten`: a front matter that already binds
`filename: old` has it overwritten with the document path. -/
theorem C7_filename_overwritten_witness :
    get_metadata (fun _ => YVal.dict [("filename", Val.vstr "old")]) "d.md"
        ["---\n", "x\n", "---\n"]
      = Except.ok (some [("filename", Val.vstr "d.md")]) ∧
    dictGet [("filename", Val.vstr "d.md")] "filename"
      = some (Val.vstr "d.md") := by
  refine ⟨rfl, ?_⟩
  exact (C7_filename_overwritten (fun _ => YVal.dict [("filename", Val.vstr "old")])
    "d.md" ["---\n", "x\n", "---\n"] [("filename", Val.vstr "d.md")] rfl).1

-- ## Contribution-shape lemmas

theorem tagContrib_of_vlist (tagname : String) (tag : Scalar) (r : Record)
    (ts : List Scalar) (hr : r ≠ [])
    (hv : dictGet (withTitle r) tagname = some (Val.vlist ts)) :
    tagContrib tagname tag (some r)
      = List.replicate (ts.count tag) (withTitle r) := by
  simp [tagContrib, hr, hv, iterVal]

theorem mem_tagContrib_inv (tagname : String) (tag : Scalar)
    (e0 : Option Record) (hok : okTagVal tagname e0 = true) (e : Record)
    (he : e ∈ tagContrib tagname tag e0) :
    ∃ r, e0 = some r ∧ r ≠ [] ∧ e = withTitle r ∧
      ∃ ts, dictGet (withTitle r) tagname = some (Val.vlist ts) ∧
        tag ∈ ts := by
  match e0 with
  | none => simp [tagContrib] at he
  | some r =>
    simp only [okTagVal] at hok
    simp only [tagContrib] at he
    by_cases hr : r = []
    · simp [hr] at he
    · simp only [hr, if_false] at he
      cases hv : dictGet (withTitle r) tagname with
      | none => rw [hv] at he; simp at he
      | some v =>
        rw [hv] at he
        rw [hv] at hok
        cases v with
        | vnull => simp at he
        | vstr s => simp at hok
        | vint n => simp at hok
        | vlist ts =>
          simp only [iterVal] at he
          rcases List.mem_replicate.mp he with ⟨hc, rfl⟩
          refine ⟨r, rfl, hr, rfl, ts, hv, ?_⟩
          have : 0 < ts.count tag := Nat.pos_of_ne_zero hc
          exact List.count_pos_iff.mp this

-- ## Claim C1

/-- C1.  For metadata lists whose tag-category values are sequences or
null (the shapes the claim speaks about), the aggregator succeeds and each
tag's group is exactly the concatenation, over the globally sorted record
list, of one copy of the (title-defaulted) record per occurrence of the tag
in its sequence (`tagContrib`).  Hence (second conjunct): a record is in a
tag's group iff it is non-empty and its tag-category value is a non-null
sequence containing the tag; a record lacking the key or with a null value
contributes to no group yet raises no error; and each group list preserves
the sorted order, being a filtered traversal of `sortMeta l`. -/
theorem C1_grouping_characterized (tagname : String)
    (l : List (Option Record)) (h : l.all (okTagVal tagname) = true) :
    ∃ D, generate_tags_groups tagname l = Except.ok D ∧
      (∀ tag, findTagD D tag
        = (sortMeta l).flatMap (tagContrib tagname tag)) ∧
      (∀ tag e, e ∈ findTagD D tag ↔
        ∃ r, some r ∈ l ∧ r ≠ [] ∧ e = withTitle r ∧
          ∃ ts, dictGet (withTitle r) tagname = some (Val.vlist ts) ∧
            tag ∈ ts) := by
  obtain ⟨D, hD, hQ⟩ := generate_tags_groups_ok tagname l h
  refine ⟨D, hD, hQ, ?_⟩
  intro tag e
  rw [hQ tag]
  constructor
  · intro he
    rcases List.mem_flatMap.mp he with ⟨e0, he0, hec⟩
    have he0l : e0 ∈ l :=
      (perm_sortStable yearKey intLeB l).mem_iff.mp he0
    have hok : okTagVal tagname e0 = true := List.all_eq_true.mp h e0 he0l
    rcases mem_tagContrib_inv tagname tag e0 hok e hec with
      ⟨r, rfl, hr, hre, ts, hv, hts⟩
    exact ⟨r, he0l, hr, hre, ts, hv, hts⟩
  · intro ⟨r, hrl, hr, hre, ts, hv, hts⟩
    refine List.mem_flatMap.mpr ⟨some r, ?_, ?_⟩
    · exact (perm_sortStable yearKey intLeB l).mem_iff.mpr hrl
    · rw [tagContrib_of_vlist tagname tag r ts hr hv, hre]
      exact List.mem_replicate.mpr
        ⟨Nat.pos_iff_ne_zero.mp (List.count_pos_iff.mpr hts), rfl⟩

/-- Witness for `C1_grouping_characterized` on a one-record list. -/
theorem C1_grouping_characterized_witness :
    ([some [("tags", Val.vlist [Scalar.sstr "x"])]] :
        List (Option Record)).all (okTagVal "tags") = true ∧
    (∃ D, generate_tags_groups "tags"
        [some [("tags", Val.vlist [Scalar.sstr "x"])]] = Except.ok D ∧
      (∀ tag, findTagD D tag
        = (sortMeta [some [("tags", Val.vlist [Scalar.sstr "x"])]]).flatMap
            (tagContrib "tags" tag)) ∧
      (∀ tag e, e ∈ findTagD D tag ↔
        ∃ r, some r ∈ [some [("tags", Val.vlist [Scalar.sstr "x"])]] ∧
          r ≠ [] ∧ e = withTitle r ∧
          ∃ ts, dictGet (withTitle r) "tags" = some (Val.vlist ts) ∧
            tag ∈ ts)) :=
  ⟨by decide, C1_grouping_characterized "tags" _ (by decide)⟩

-- ## Claim C6

/-- C6.  A record that already has a `title` is left unchanged; a record
lacking one gets the literal `"Untitled"`; and every record that reaches any
group of the aggregator's output is the title-defaulted image `withTitle r`
of an input record, so it carries a `title` before any downstream use. -/
theorem C6_title_defaulted (tagname : String) (l : List (Option Record))
    (h : l.all (okTagVal tagname) = true) :
    (∀ r : Record, dictGet r "title" ≠ none → withTitle r = r) ∧
    (∀ r : Record, dictGet r "title" = none →
      dictGet (withTitle r) "title" = some (Val.vstr "Untitled")) ∧
    ∃ D, generate_tags_groups tagname l = Except.ok D ∧
      ∀ tag e, e ∈ findTagD D tag →
        (∃ r, some r ∈ l ∧ e = withTitle r) ∧
        dictGet e "title" ≠ none := by
  refine ⟨withTitle_of_has, dictGet_withTitle_of_missing, ?_⟩
  obtain ⟨D, hD, hQ⟩ := generate_tags_groups_ok tagname l h
  refine ⟨D, hD, ?_⟩
  intro tag e he
  rw [hQ tag] at he
  rcases List.mem_flatMap.mp he with ⟨e0, he0, hec⟩
  have he0l : e0 ∈ l := (perm_sortStable yearKey intLeB l).mem_iff.mp he0
  have hok : okTagVal tagname e0 = true := List.all_eq_true.mp h e0 he0l
  rcases mem_tagContrib_inv tagname tag e0 hok e hec with
    ⟨r, rfl, _, hre, _, _, _⟩
  subst hre
  exact ⟨⟨r, he0l, rfl⟩, dictGet_withTitle_title r⟩

/-- Witness for `C6_title_defaulted` on a one-record list. -/
theorem C6_title_defaulted_witness :
    ([some [("tags", Val.vlist [Scalar.sstr "x"])], none] :
        List (Option Record)).all (okTagVal "tags") = true ∧
    ((∀ r : Record, dictGet r "title" ≠ none → withTitle r = r) ∧
    (∀ r : Record, dictGet r "title" = none →
      dictGet (withTitle r) "title" = some (Val.vstr "Untitled")) ∧
    ∃ D, generate_tags_groups "tags"
        [some [("tags", Val.vlist [Scalar.sstr "x"])], none] = Except.ok D ∧
      ∀ tag e, e ∈ findTagD D tag →
        (∃ r, some r ∈ [some [("tags", Val.vlist [Scalar.sstr "x"])], none] ∧
          e = withTitle r) ∧
        dictGet e "title" ≠ none) :=
  ⟨by decide, C6_title_defaulted "tags" _ (by decide)⟩

-- ## Claim C10

/-- C10.  A record whose tag-category sequence mentions `tag` several
times contributes exactly one copy of itself per occurrence
(`tagContrib = replicate (count)`), so when the sequence holds the tag at
least twice, the record appears at least that many times — in particular
more than once, no deduplication — in that tag's group. -/
theorem C10_duplicates_kept (tagname : String) (l : List (Option Record))
    (tag : Scalar) (r : Record) (ts : List Scalar)
    (h : l.all (okTagVal tagname) = true)
    (hrl : some r ∈ l) (hr : r ≠ [])
    (hts : dictGet (withTitle r) tagname = some (Val.vlist ts))
    (hdup : 2 ≤ ts.count tag) :
    tagContrib tagname tag (some r)
      = List.replicate (ts.count tag) (withTitle r) ∧
    ∃ D, generate_tags_groups tagname l = Except.ok D ∧
      ts.count tag ≤ (findTagD D tag).count (withTitle r) ∧
      2 ≤ (findTagD D tag).count (withTitle r) := by
  have hcontrib := tagContrib_of_vlist tagname tag r ts hr hts
  obtain ⟨D, hD, hQ⟩ := generate_tags_groups_ok tagname l h
  have hmem : (some r) ∈ sortMeta l :=
    (perm_sortStable yearKey intLeB l).mem_iff.mpr hrl
  have hle := count_le_count_flatMap (tagContrib tagname tag) (withTitle r)
    (sortMeta l) (some r) hmem
  rw [hcontrib, List.count_replicate_self] at hle
  rw [← hQ tag] at hle
  exact ⟨hcontrib, D, hD, hle, le_trans hdup hle⟩

/-- Witness for `C10_duplicates_kept`: a record tagged `x` twice appears
twice in the group of `x`. -/
theorem C10_duplicates_kept_witness :
    ([some [("tags", Val.vlist [Scalar.sstr "x", Scalar.sstr "x"])]] :
        List (Option Record)).all (okTagVal "tags") = true ∧
    (tagContrib "tags" (Scalar.sstr "x")
        (some [("tags", Val.vlist [Scalar.sstr "x", Scalar.sstr "x"])])
      = List.replicate
          (([Scalar.sstr "x", Scalar.sstr "x"] : List Scalar).count
            (Scalar.sstr "x"))
          (withTitle [("tags", Val.vlist [Scalar.sstr "x", Scalar.sstr "x"])]) ∧
    ∃ D, generate_tags_groups "tags"
        [some [("tags", Val.vlist [Scalar.sstr "x", Scalar.sstr "x"])]]
        = Except.ok D ∧
      ([Scalar.sstr "x", Scalar.sstr "x"] : List Scalar).count (Scalar.sstr "x")
        ≤ (findTagD D (Scalar.sstr "x")).count
            (withTitle [("tags", Val.vlist [Scalar.sstr "x", Scalar.sstr "x"])]) ∧
      2 ≤ (findTagD D (Scalar.sstr "x")).count
            (withTitle [("tags", Val.vlist [Scalar.sstr "x", Scalar.sstr "x"])])) :=
  ⟨by decide, C10_duplicates_kept "tags" _ (Scalar.sstr "x") _ _ (by decide)
    (by decide) (by decide) (by decide) (by decide)⟩

-- ## Claim C2

theorem ne_nil_of_dictGet_some (r : Record) (k : String) (v : Val)
    (h : dictGet r k = some v) : r ≠ [] := by
  intro hr
  subst hr
  simp [dictGet] at h

/-- C2.  The global sort of `generate_tags_file` is a permutation of the
metadata list, sorted by the year key; it is stable (sorting the
index-annotated list puts pairs in strictly increasing index order whenever
their year keys are equal, and projecting the indices away yields exactly
`sortMeta`); and in the sorted output a non-empty record with no `year` key
never precedes a record whose `year` is below 5000 — the missing year is
replaced by the sentinel 5000, so such records sort after every year below
it.  The hypothesis restricts `year` values to integers, the only case the
claim (and Python's comparison, which would raise `TypeError` otherwise)
covers. -/
theorem C2_sort_stable_missing_year_last (l : List (Option Record))
    (h : l.all numericYear = true) :
    (sortMeta l).Perm l ∧
    ((sortMeta l).Pairwise fun a b => yearKey a ≤ yearKey b) ∧
    (sortStable (fun q => yearKey q.2) intLeB l.enum).map Prod.snd
      = sortMeta l ∧
    ((sortStable (fun q => yearKey q.2) intLeB l.enum).Pairwise fun a b =>
      yearKey a.2 < yearKey b.2 ∨
        (yearKey a.2 = yearKey b.2 ∧ a.1 < b.1)) ∧
    ((sortMeta l).Pairwise fun x y =>
      ¬ ((∃ r, x = some r ∧ r ≠ [] ∧ dictGet r "year" = none) ∧
         (∃ r n, y = some r ∧ dictGet r "year" = some (Val.vint n) ∧
           n < 5000))) := by
  have hperm := perm_sortStable yearKey intLeB l
  have hle := pairwise_le_sortStable yearKey intLeB intLeB_total intLeB_trans l
  have hle' : (sortMeta l).Pairwise fun a b => yearKey a ≤ yearKey b :=
    hle.imp (fun hab => by simpa [intLeB] using hab)
  refine ⟨hperm, hle', ?_, ?_, ?_⟩
  · rw [map_sortStable yearKey intLeB Prod.snd l.enum, List.enum_map_snd]
    rfl
  · have hsr := pairwise_sr_sortStable (fun q => yearKey q.2) intLeB Prod.fst
      intLeB_refl intLeB_total intLeB_trans l.enum (pairwise_fst_lt_enum l)
    refine hsr.imp ?_
    intro a b hab
    rcases hab with ⟨hab, hne⟩ | ⟨heq, hidx⟩
    · left
      simp only [intLeB, decide_eq_true_eq] at hab
      exact lt_of_le_of_ne hab hne
    · exact Or.inr ⟨heq, hidx⟩
  · refine hle'.imp ?_
    intro x y hxy hbad
    rcases hbad with ⟨⟨r, rfl, hr, hy⟩, ⟨r', n, rfl, hv, hn⟩⟩
    have hx5000 : yearKey (some r) = 5000 := by simp [yearKey, hr, hy]
    have hr' : r' ≠ [] := ne_nil_of_dictGet_some r' "year" (Val.vint n) hv
    have hyn : yearKey (some r') = n := by simp [yearKey, hr', hv]
    rw [hx5000, hyn] at hxy
    omega

/-- Witness for `C2_sort_stable_missing_year_last`: a record with
`year = 2021`, a "no metadata" placeholder and a year-less record. -/
theorem C2_sort_stable_missing_year_last_witness :
    ([some [("year", Val.vint 2021)], none, some [("a", Val.vint 1)]] :
        List (Option Record)).all numericYear = true ∧
    ((sortMeta [some [("year", Val.vint 2021)], none,
        some [("a", Val.vint 1)]]).Perm
      [some [("year", Val.vint 2021)], none, some [("a", Val.vint 1)]] ∧
    ((sortMeta [some [("year", Val.vint 2021)], none,
        some [("a", Val.vint 1)]]).Pairwise fun a b =>
      yearKey a ≤ yearKey b) ∧
    (sortStable (fun q => yearKey q.2) intLeB
        ([some [("year", Val.vint 2021)], none,
          some [("a", Val.vint 1)]] : List (Option Record)).enum).map Prod.snd
      = sortMeta [some [("year", Val.vint 2021)], none,
          some [("a", Val.vint 1)]] ∧
    ((sortStable (fun q => yearKey q.2) intLeB
        ([some [("year", Val.vint 2021)], none,
          some [("a", Val.vint 1)]] : List (Option Record)).enum).Pairwise
      fun a b => yearKey a.2 < yearKey b.2 ∨
        (yearKey a.2 = yearKey b.2 ∧ a.1 < b.1)) ∧
    ((sortMeta [some [("year", Val.vint 2021)], none,
        some [("a", Val.vint 1)]]).Pairwise fun x y =>
      ¬ ((∃ r, x = some r ∧ r ≠ [] ∧ dictGet r "year" = none) ∧
         (∃ r n, y = some r ∧ dictGet r "year" = some (Val.vint n) ∧
           n < 5000)))) :=
  ⟨by decide, C2_sort_stable_missing_year_last _ (by decide)⟩

-- ## Claim C5

/-- Tag keys that are strings — the only shape `t[0].lower()` accepts. -/
def isStrKey : Scalar → Bool
  | Scalar.sstr _ => true
  | _ => false

/-- C5.  The renderer's pair list is the grouping's items stably sorted
by the lower-cased tag string: it is a permutation of the grouping in
case-insensitive lexicographic order, and sorting the index-annotated items
shows stability — equal lower-cased keys stay in increasing index order,
i.e. first-encounter insertion order — while projecting the indices away
gives exactly `sortItems`.  The hypothesis restricts tag keys to strings,
the only case the claim (and Python's `t[0].lower()`) covers. -/
theorem C5_items_sorted_ci_stable (d : TagDict)
    (h : d.all (fun p => isStrKey p.1) = true) :
    (∀ t, (generate_tags_page d t).tags = sortItems d) ∧
    (sortItems d).Perm d ∧
    ((sortItems d).Pairwise fun a b =>
      strLe (lowerKeyOf a) (lowerKeyOf b) = true) ∧
    (sortStable (fun q => lowerKeyOf q.2) strLe d.enum).map Prod.snd
      = sortItems d ∧
    ((sortStable (fun q => lowerKeyOf q.2) strLe d.enum).Pairwise fun a b =>
      (strLe (lowerKeyOf a.2) (lowerKeyOf b.2) = true ∧
        lowerKeyOf a.2 ≠ lowerKeyOf b.2) ∨
      (lowerKeyOf a.2 = lowerKeyOf b.2 ∧ a.1 < b.1)) := by
  refine ⟨fun t => rfl, perm_sortStable lowerKeyOf strLe d,
    pairwise_le_sortStable lowerKeyOf strLe strLe_total strLe_trans d, ?_, ?_⟩
  · rw [map_sortStable lowerKeyOf strLe Prod.snd d.enum, List.enum_map_snd]
    rfl
  · exact pairwise_sr_sortStable (fun q => lowerKeyOf q.2) strLe Prod.fst
      strLe_refl strLe_total strLe_trans d.enum (pairwise_fst_lt_enum d)

/-- Witness for `C5_items_sorted_ci_stable`: groups keyed `"go"`, `"Ada"`,
`"Go"`. -/
theorem C5_items_sorted_ci_stable_witness :
    ([(Scalar.sstr "go", []), (Scalar.sstr "Ada", []),
        (Scalar.sstr "Go", [])] : TagDict).all (fun p => isStrKey p.1)
      = true ∧
    ((∀ t, (generate_tags_page [(Scalar.sstr "go", []), (Scalar.sstr "Ada", []),
        (Scalar.sstr "Go", [])] t).tags
      = sortItems [(Scalar.sstr "go", []), (Scalar.sstr "Ada", []),
          (Scalar.sstr "Go", [])]) ∧
    (sortItems [(Scalar.sstr "go", []), (Scalar.sstr "Ada", []),
        (Scalar.sstr "Go", [])]).Perm
      [(Scalar.sstr "go", []), (Scalar.sstr "Ada", []),
        (Scalar.sstr "Go", [])] ∧
    ((sortItems [(Scalar.sstr "go", []), (Scalar.sstr "Ada", []),
        (Scalar.sstr "Go", [])]).Pairwise fun a b =>
      strLe (lowerKeyOf a) (lowerKeyOf b) = true) ∧
    (sortStable (fun q => lowerKeyOf q.2) strLe
        ([(Scalar.sstr "go", []), (Scalar.sstr "Ada", []),
          (Scalar.sstr "Go", [])] : TagDict).enum).map Prod.snd
      = sortItems [(Scalar.sstr "go", []), (Scalar.sstr "Ada", []),
          (Scalar.sstr "Go", [])] ∧
    ((sortStable (fun q => lowerKeyOf q.2) strLe
        ([(Scalar.sstr "go", []), (Scalar.sstr "Ada", []),
          (Scalar.sstr "Go", [])] : TagDict).enum).Pairwise fun a b =>
      (strLe (lowerKeyOf a.2) (lowerKeyOf b.2) = true ∧
        lowerKeyOf a.2 ≠ lowerKeyOf b.2) ∨
      (lowerKeyOf a.2 = lowerKeyOf b.2 ∧ a.1 < b.1))) :=
  ⟨by decide, C5_items_sorted_ci_stable _ (by decide)⟩

-- ## Claim C8

/-- C8, counterexample.  The claim reads: the context's `title` equals
the tag-category name with its first character capitalized.  Python's
`str.capitalize` also lower-cases every later character, so for the
category name `"aB"` the code produces `"Ab"`, not `"AB"`. -/
theorem C8_claim_counterexample :
    (generate_tags_page [] "aB").title = "Ab" ∧
    specCapitalize "aB" = "AB" ∧
    (generate_tags_page [] "aB").title ≠ specCapitalize "aB" :=
  ⟨by decide, by decide, by decide⟩

/-- C8, amended.  The renderer's context carries the sorted pair list
under `tags`, the raw tag-category name under `tagname`, and under `title`
the name with its first character upper-cased *and every remaining character
lower-cased* (Python's `str.capitalize`), as the last conjunct spells out at
the character level. -/
theorem C8_render_context (d : TagDict) (t : String) :
    (generate_tags_page d t).tagname = t ∧
    (generate_tags_page d t).tags = sortItems d ∧
    (generate_tags_page d t).title = pyCapitalize t ∧
    (pyCapitalize t).data = (match t.data with
      | [] => []
      | c :: cs => Char.toUpper c :: cs.map Char.toLower) := by
  refine ⟨rfl, rfl, rfl, ?_⟩
  cases ht : t.data with
  | nil => simp [pyCapitalize, ht]
  | cons c cs => simp [pyCapitalize, ht]

end Tags
